import Mathlib

/- Verification of the pegboard pattern-editing state engine of this
   repository: the shallow embedding below translates `src/store.ts`
   (the zustand store holding the cell grid, tool/color selection and
   the linear undo/redo history) and `src/utils/coords.ts` (the
   coordinate codec `makeKey`/`parseKey`).

   Modelling conventions:
   - JavaScript integer-valued numbers are `Int` (grid coordinates may be
     negative when callers pass out-of-bounds positions), history indices
     are `Nat` (the code keeps them non-negative by construction).
   - A JavaScript `Map<string, string>` is an association list
     `List (String × String)` in insertion order; `Map.get` is first
     match, `Map.set` replaces in place or appends, `Map.delete` removes
     the key.  Real maps never hold a duplicate key; the embedding's
     operations preserve that (`keysNodup` below).
   - `undefined` results are `Option.none`.
   - `types.ts` is not part of the sources; the tool enumeration is
     modelled from the spec and the board is kept parametric. -/

namespace PegCraft

/-! ## Coordinate codec (src/utils/coords.ts) -/

/-- Decimal digit character with code `48 + d`, as JavaScript's
number-to-string conversion produces for a digit `d < 10`. -/
def digitChar (d : Nat) : Char := Char.ofNat (48 + d)

/-- Fuel-driven helper for `natDigits` (structural recursion keeps it
kernel-reducible; the fuel never runs out when it exceeds `n`, see
`natDigits_eq`). -/
def natDigitsAux : Nat → Nat → List Char
  | 0, _ => []
  | fuel + 1, n =>
    if n < 10 then [digitChar n]
    else natDigitsAux fuel (n / 10) ++ [digitChar (n % 10)]

/-- Decimal digit characters of a natural number, most significant digit
first: the text JavaScript produces for a non-negative integer inside a
template literal. -/
def natDigits (n : Nat) : List Char := natDigitsAux (n + 1) n

/-- Text JavaScript produces for an integer inside a template literal:
optional leading minus sign followed by the decimal digits. -/
def intChars (i : Int) : List Char :=
  if i < 0 then '-' :: natDigits i.natAbs else natDigits i.natAbs

/-- The codec's `makeKey` from `src/utils/coords.ts`: the template
literal `x,y` with both coordinates printed in decimal. -/
def makeKey (x y : Int) : String := ⟨intChars x ++ ',' :: intChars y⟩

/-- Value of a decimal digit character; `none` on any other character. -/
def digitVal (c : Char) : Option Nat :=
  if 48 ≤ c.toNat ∧ c.toNat ≤ 57 then some (c.toNat - 48) else none

/-- Accumulating decimal parser over a character list; fails on the first
non-digit character. -/
def parseDigits : List Char → Nat → Option Nat
  | [], acc => some acc
  | c :: cs, acc =>
    match digitVal c with
    | some d => parseDigits cs (acc * 10 + d)
    | none => none

/-- Parse a non-empty all-digit character list; `none` models NaN. -/
def digitsNum (l : List Char) : Option Nat :=
  match l with
  | [] => none
  | _ :: _ => parseDigits l 0

/-- Model of JavaScript `Number(s)` on the string fragment the codec can
meet: the empty string is 0, an optional minus sign followed by decimal
digits is the signed value, anything else is NaN (`none`).  (Forms such
as hexadecimal, fractional or padded numerals never arise from keys
produced by `makeKey` and are mapped to `none`.) -/
def jsNumber (l : List Char) : Option Int :=
  match l with
  | [] => some 0
  | c :: cs =>
    if c = '-' then
      match digitsNum cs with
      | some n => some (-(n : Int))
      | none => none
    else
      match digitsNum (c :: cs) with
      | some n => some ((n : Int))
      | none => none

/-- Model of JavaScript `String.split(',')`. -/
def splitComma : List Char → List (List Char)
  | [] => [[]]
  | c :: rest =>
    if c = ',' then [] :: splitComma rest
    else
      match splitComma rest with
      | [] => [[c]]
      | p :: ps => (c :: p) :: ps

/-- The codec's `parseKey` from `src/utils/coords.ts`: split the key on
commas and convert the first two components with `Number`; a `none`
component models a NaN (or, when the key has no comma, the `undefined`
second component). -/
def parseKey (s : String) : Option Int × Option Int :=
  let parts := splitComma s.data
  ((parts[0]?).bind jsNumber, (parts[1]?).bind jsNumber)

/-! ## Cell grid: the `Map<CellKey, string>` of src/store.ts

A JavaScript `Map` with string keys and string values, in insertion
order.  `gget` is `Map.get` (first matching entry; real maps have unique
keys), `ghas` is `Map.has`, `gset` is `Map.set` (update in place keeping
the position, else append), `gdel` is `Map.delete`. -/

abbrev Grid := List (String × String)

def gget (g : Grid) (k : String) : Option String :=
  (g.find? (fun e => e.1 == k)).map (·.2)

def ghas (g : Grid) (k : String) : Bool :=
  g.any (fun e => e.1 == k)

def gset (g : Grid) (k : String) (v : String) : Grid :=
  if ghas g k then g.map (fun e => if e.1 == k then (k, v) else e)
  else g ++ [(k, v)]

def gdel (g : Grid) (k : String) : Grid :=
  g.filter (fun e => !(e.1 == k))

/-- Real JavaScript maps and objects never hold two entries with the same
key; the engine's grids always satisfy this. -/
def keysNodup (g : Grid) : Prop := (g.map Prod.fst).Nodup

instance (g : Grid) : Decidable (keysNodup g) := by
  unfold keysNodup
  infer_instance

/-! ## Engine state and operations (src/store.ts) -/

/-- Board dimensions (`BoardSpec.cols`/`rows`); `fill` only reads these
two fields.  `types.ts` with `DEFAULT_BOARD` is not among the sources, so
the board stays parametric. -/
structure Board where
  cols : Int
  rows : Int
deriving DecidableEq

/-- Tool enumeration.  Modelled from the spec: `ToolType` lives in
`types.ts`, which is not among the sources; the spec describes a closed
enumeration paint (pencil) / erase (eraser) / fill, with a reserved
"line" value that has no distinct behavior.  `store.ts` only ever
compares the active tool against the eraser value. -/
inductive Tool
  | pencil
  | eraser
  | fillTool
  | line
deriving DecidableEq

structure Metadata where
  title : String
  author : String
  difficulty : String
  created : Int
deriving DecidableEq

/-- The persisted/exported `Pattern`: its `cells` field is a JavaScript
record (plain object), modelled like the map as an association list;
real objects never repeat a key. -/
structure Pattern where
  id : String
  metadata : Metadata
  cells : List (String × String)
deriving DecidableEq

/-- The engine state of the store (data and history; pure UI fields such
as `showGrid`/`viewMode` and the constant `palette` carry no engine
semantics and are omitted). -/
structure EngineState where
  board : Board
  cells : Grid
  selectedColorId : String
  activeTool : Tool
  metadata : Metadata
  history : List Grid
  historyPointer : Nat
deriving DecidableEq

/-- `recordToMap` from store.ts: `new Map(Object.entries(record))`
inserts the record's entries in order (`Map.set` semantics on a repeated
key: keep the first position, take the last value). -/
def recordToMap (r : List (String × String)) : Grid :=
  r.foldl (fun m kv => gset m kv.1 kv.2) []

/-- `mapToRecord` from store.ts: `Object.fromEntries(map)` assigns the
map's entries in order into a fresh object; property assignment on a
repeated key also keeps the first position and takes the last value, so
the same fold models it.  (A JavaScript object additionally fronts
integer-like keys; that permutation never affects key lookup and no
claim depends on entry order of the record.) -/
def mapToRecord (m : Grid) : List (String × String) :=
  m.foldl (fun r kv => gset r kv.1 kv.2) []

/-- The `newVal` each `setCell` call computes: `undefined` (`none`) for
the eraser, the selected color id for every other tool. -/
def targetValue (s : EngineState) : Option String :=
  if s.activeTool = Tool.eraser then none else some s.selectedColorId

/-- The common tail of every mutating operation in store.ts:
`const newHistory = history.slice(0, historyPointer + 1);`
`newHistory.push(newCells);`
`set({ cells: newCells, history: newHistory,`
`      historyPointer: newHistory.length - 1 })`. -/
def pushSnapshot (s : EngineState) (c : Grid) : EngineState :=
  { s with cells := c,
           history := s.history.take (s.historyPointer + 1) ++ [c],
           historyPointer :=
             (s.history.take (s.historyPointer + 1) ++ [c]).length - 1 }

/-- The `newCells` map `setCell` builds from the clone of `cells`: the
write mirrors JavaScript truthiness in `if (newVal) set else delete` —
both `undefined` and the empty string are falsy and delete the key. -/
def setCellNewCells (s : EngineState) (x y : Int) : Grid :=
  match targetValue s with
  | some v => if v = "" then gdel s.cells (makeKey x y)
              else gset s.cells (makeKey x y) v
  | none => gdel s.cells (makeKey x y)

/-- `setCell` from store.ts; the early return models
`if (currentVal === newVal) return`. -/
def setCellOp (x y : Int) (s : EngineState) : EngineState :=
  if gget s.cells (makeKey x y) = targetValue s then s
  else pushSnapshot s (setCellNewCells s x y)

abbrev Coord := Int × Int

/-- Bounds check of the fill loop:
`!(x < 0 || x >= board.cols || y < 0 || y >= board.rows)`. -/
def inB (b : Board) (p : Coord) : Prop :=
  0 ≤ p.1 ∧ p.1 < b.cols ∧ 0 ≤ p.2 ∧ p.2 < b.rows

instance (b : Board) : DecidablePred (inB b) := fun _ => by
  unfold inB
  infer_instance

/-- All in-bounds coordinates, as a finite set (used only to measure the
fill loop's termination). -/
def boardCells (b : Board) : Finset Coord :=
  Finset.Icc 0 (b.cols - 1) ×ˢ Finset.Icc 0 (b.rows - 1)

/-- The four neighbors `fill` enqueues, in the order the stack pops them:
the code pushes `[x+1,y]`, `[x-1,y]`, `[x,y+1]`, `[x,y-1]` onto the end
of the array and `pop()` takes from the end, so `(x, y-1)` is processed
first.  The model's queue list has its head as the top of that stack. -/
def neighborsRev (p : Coord) : List Coord :=
  [(p.1, p.2 - 1), (p.1, p.2 + 1), (p.1 - 1, p.2), (p.1 + 1, p.2)]

/-- The `while (queue.length > 0)` loop of `fill`: pop a position; skip
it when already visited, out of bounds, or not matching the original
target color (the color is read from the partially recolored map
`newCells`); otherwise recolor it, mark it visited and push its four
neighbors.  The visited set holds keys `makeKey(x, y)`; `makeKey` is
injective (see `makeKey_inj`), so the model keeps the coordinates
themselves.  Returns the final map together with the visited set. -/
def floodLoop (b : Board) (t : Option String) (sel : String) :
    List Coord → Finset Coord → Grid → Grid × Finset Coord
  | [], visited, g => (g, visited)
  | p :: rest, visited, g =>
    if p ∈ visited then floodLoop b t sel rest visited g
    else if ¬ inB b p then floodLoop b t sel rest visited g
    else if gget g (makeKey p.1 p.2) = t then
      floodLoop b t sel (neighborsRev p ++ rest) (insert p visited)
        (gset g (makeKey p.1 p.2) sel)
    else floodLoop b t sel rest visited g
termination_by q visited _ => 5 * (boardCells b \ visited).card + q.length
decreasing_by
all_goals simp only [List.length_cons, List.length_append, neighborsRev,
  List.length_nil]
· omega
· omega
· have hnv : p ∉ visited := by assumption
  have hbp : ¬¬ inB b p := by assumption
  have hp : p ∈ boardCells b \ visited := by
    rw [Finset.mem_sdiff]
    refine ⟨?_, hnv⟩
    have hin := not_not.mp hbp
    unfold inB at hin
    unfold boardCells
    rw [Finset.mem_product, Finset.mem_Icc, Finset.mem_Icc]
    omega
  have hcard : (boardCells b \ insert p visited).card
      = (boardCells b \ visited).card - 1 := by
    rw [Finset.sdiff_insert, Finset.card_erase_of_mem hp]
  have hpos : 0 < (boardCells b \ visited).card := Finset.card_pos.mpr ⟨p, hp⟩
  omega
· omega

/-- The map the fill loop leaves behind, starting from the clone of the
current cells with the target color read at the start key. -/
def fillNewCells (s : EngineState) (x y : Int) : Grid :=
  (floodLoop s.board (gget s.cells (makeKey x y)) s.selectedColorId
    [(x, y)] ∅ s.cells).1

/-- `fill` from store.ts: determine the target color at the start key
(possibly `undefined`), no-op when it already equals the selected color
(an `undefined` target never does), otherwise run the flood loop on a
copy of the map and append the one new snapshot to the truncated
history. -/
def fillOp (startX startY : Int) (s : EngineState) : EngineState :=
  if gget s.cells (makeKey startX startY) = some s.selectedColorId then s
  else pushSnapshot s (fillNewCells s startX startY)

/-- `clearBoard` from store.ts: always appends an empty snapshot. -/
def clearBoardOp (s : EngineState) : EngineState :=
  pushSnapshot s []

def setColorOp (id : String) (s : EngineState) : EngineState :=
  { s with selectedColorId := id }

def setToolOp (t : Tool) (s : EngineState) : EngineState :=
  { s with activeTool := t }

/-- `undo` from store.ts; `history[newPointer]` is modelled with default
`[]`, the index being in range whenever the history invariant holds. -/
def undoOp (s : EngineState) : EngineState :=
  if 0 < s.historyPointer then
    { s with historyPointer := s.historyPointer - 1,
             cells := s.history.getD (s.historyPointer - 1) [] }
  else s

/-- `redo` from store.ts; the guard `historyPointer < history.length - 1`
over JavaScript numbers is `historyPointer + 1 < history.length` over
`Nat` (also when the length is 0, where both are false). -/
def redoOp (s : EngineState) : EngineState :=
  if s.historyPointer + 1 < s.history.length then
    { s with historyPointer := s.historyPointer + 1,
             cells := s.history.getD (s.historyPointer + 1) [] }
  else s

/-- `loadPattern` from store.ts: decode the record, replace metadata,
reset the history to the single new snapshot. -/
def loadPatternOp (p : Pattern) (s : EngineState) : EngineState :=
  let newCells := recordToMap p.cells
  { s with cells := newCells, metadata := p.metadata,
           history := [newCells], historyPointer := 0 }

/-- `exportPattern` from store.ts: a pure read producing a `Pattern`; the
fresh uuid and the current time come from outside the engine and are
passed as arguments. -/
def exportPatternOp (s : EngineState) (newId : String) (now : Int) : Pattern :=
  { id := newId, metadata := { s.metadata with created := now },
    cells := mapToRecord s.cells }

/-- Initial store state: empty grid, history `[new Map()]`, pointer 0,
pencil tool.  The default selected color is `DEFAULT_PALETTE[0].id`
(from the absent `types.ts`) and the metadata timestamp is `Date.now()`,
so both stay parametric. -/
def initState (b : Board) (defaultColorId : String) (now : Int) : EngineState :=
  { board := b, cells := [], selectedColorId := defaultColorId,
    activeTool := Tool.pencil,
    metadata := { title := "My Pattern", author := "Artist",
                  difficulty := "Easy", created := now },
    history := [([] : Grid)], historyPointer := 0 }

/-- States reachable from a fresh store through the engine's actions.
`exportPattern` is a pure read and leaves the state unchanged, so it
needs no constructor; `setViewMode` only touches the omitted UI field. -/
inductive Reachable : EngineState → Prop
  | init (b : Board) (c : String) (now : Int) : Reachable (initState b c now)
  | setCell {s} (x y : Int) : Reachable s → Reachable (setCellOp x y s)
  | fill {s} (x y : Int) : Reachable s → Reachable (fillOp x y s)
  | clear {s} : Reachable s → Reachable (clearBoardOp s)
  | setColor {s} (id : String) : Reachable s → Reachable (setColorOp id s)
  | setTool {s} (t : Tool) : Reachable s → Reachable (setToolOp t s)
  | undo {s} : Reachable s → Reachable (undoOp s)
  | redo {s} : Reachable s → Reachable (redoOp s)
  | load {s} (p : Pattern) : Reachable s → Reachable (loadPatternOp p s)

/-! ## Derived notions the claims quantify over -/

/-- The three grid-mutating operations. -/
inductive MutOp
  | cell (x y : Int)
  | flood (x y : Int)
  | clear

/-- Run one mutating operation. -/
def applyMut : MutOp → EngineState → EngineState
  | .cell x y, s => setCellOp x y s
  | .flood x y, s => fillOp x y s
  | .clear, s => clearBoardOp s

/-- Exact early-return (no-op) conditions of the three mutating
operations; `clearBoard` never takes an early return. -/
def isNoop : MutOp → EngineState → Prop
  | .cell x y, s => gget s.cells (makeKey x y) = targetValue s
  | .flood x y, s => gget s.cells (makeKey x y) = some s.selectedColorId
  | .clear, _ => False

instance (op : MutOp) (s : EngineState) : Decidable (isNoop op s) := by
  cases op <;> unfold isNoop <;> infer_instance

def applyMuts (ops : List MutOp) (s : EngineState) : EngineState :=
  ops.foldl (fun s op => applyMut op s) s

/-- Every operation of the sequence, run at its point in the fold, takes
the non-no-op path. -/
inductive AllNonNoop : EngineState → List MutOp → Prop
  | nil (s : EngineState) : AllNonNoop s []
  | cons {s : EngineState} {op : MutOp} {ops : List MutOp} :
      ¬ isNoop op s → AllNonNoop (applyMut op s) ops → AllNonNoop s (op :: ops)

def undoN : Nat → EngineState → EngineState
  | 0, s => s
  | n + 1, s => undoN n (undoOp s)

def redoN : Nat → EngineState → EngineState
  | 0, s => s
  | n + 1, s => redoN n (redoOp s)

/-- History invariant: the pointer indexes the history and the snapshot
there is the live grid (the pointer, being a `Nat`, is non-negative by
type, which renders the `0 ≤ historyPointer` half of the bound). -/
def Inv (s : EngineState) : Prop :=
  s.historyPointer < s.history.length ∧
  s.history[s.historyPointer]? = some s.cells

instance (s : EngineState) : Decidable (Inv s) := by
  unfold Inv
  infer_instance

/-- 4-connectivity: up/down/left/right, no diagonals. -/
def adjacent (p q : Coord) : Prop :=
  q = (p.1 + 1, p.2) ∨ q = (p.1 - 1, p.2) ∨ q = (p.1, p.2 + 1) ∨ q = (p.1, p.2 - 1)

/-- A cell the fill may recolor: in bounds and holding the target color
in the pre-fill grid. -/
def goodCell (b : Board) (g : Grid) (t : Option String) (p : Coord) : Prop :=
  inB b p ∧ gget g (makeKey p.1 p.2) = t

def regionStep (b : Board) (g : Grid) (t : Option String) (p q : Coord) : Prop :=
  adjacent p q ∧ goodCell b g t p ∧ goodCell b g t q

/-- The maximal 4-connected region of cells of the start cell's color:
cells linked to the start by a chain of adjacent in-bounds cells all
holding the target color. -/
def InRegion (b : Board) (g : Grid) (t : Option String) (start p : Coord) : Prop :=
  goodCell b g t start ∧ goodCell b g t p ∧
    Relation.ReflTransGen (regionStep b g t) start p

/-- Claimed behavior of `setCell` at a position (claim C2): no-op with no
history entry when the cell already holds the target value; otherwise
change exactly that cell to the target, truncate the history past the
pointer, append the one new snapshot and point at it; and an immediate
repeat of the call changes nothing further. -/
def SetCellSpec (s : EngineState) (x y : Int) : Prop :=
  (gget s.cells (makeKey x y) = targetValue s → setCellOp x y s = s) ∧
  (gget s.cells (makeKey x y) ≠ targetValue s →
    gget (setCellOp x y s).cells (makeKey x y) = targetValue s ∧
    (∀ k : String, k ≠ makeKey x y →
      gget (setCellOp x y s).cells k = gget s.cells k) ∧
    (setCellOp x y s).history
      = s.history.take (s.historyPointer + 1) ++ [(setCellOp x y s).cells] ∧
    (setCellOp x y s).history.length = s.historyPointer + 2 ∧
    (setCellOp x y s).historyPointer = (setCellOp x y s).history.length - 1) ∧
  setCellOp x y (setCellOp x y s) = setCellOp x y s

/-- Claimed behavior of `fill` at a start position (claim C1): no-op with
no history entry when the start cell already holds the selected color;
otherwise recolor exactly the maximal 4-connected region of the start
cell's original color, leave every other cell (and every non-coordinate
key) unchanged, and append exactly one history entry. -/
def FillSpec (s : EngineState) (x y : Int) : Prop :=
  (gget s.cells (makeKey x y) = some s.selectedColorId → fillOp x y s = s) ∧
  (gget s.cells (makeKey x y) ≠ some s.selectedColorId →
    (∀ p : Coord, InRegion s.board s.cells (gget s.cells (makeKey x y)) (x, y) p →
      gget (fillOp x y s).cells (makeKey p.1 p.2) = some s.selectedColorId) ∧
    (∀ p : Coord, ¬ InRegion s.board s.cells (gget s.cells (makeKey x y)) (x, y) p →
      gget (fillOp x y s).cells (makeKey p.1 p.2) = gget s.cells (makeKey p.1 p.2)) ∧
    (fillOp x y s).history
      = s.history.take (s.historyPointer + 1) ++ [(fillOp x y s).cells] ∧
    (fillOp x y s).history.length = s.historyPointer + 2 ∧
    (fillOp x y s).historyPointer = (fillOp x y s).history.length - 1)

/-- Claimed effect of a non-no-op mutation on the history (claim C4): the
sequence is truncated to `pointer+1` entries, the new snapshot appended,
the pointer set to the last index, and a `redo` right after is a
no-op. -/
def NewEditSpec (s : EngineState) (op : MutOp) : Prop :=
  (applyMut op s).history
    = s.history.take (s.historyPointer + 1) ++ [(applyMut op s).cells] ∧
  (applyMut op s).history.length = s.historyPointer + 2 ∧
  (applyMut op s).historyPointer = (applyMut op s).history.length - 1 ∧
  redoOp (applyMut op s) = applyMut op s

/-- Claimed frame property of mutations (claim C8): every history entry
up to the old pointer — in particular the snapshot the presentation
layer was holding before the mutation — is still there, unchanged. -/
def SnapshotsPreserved (s : EngineState) (op : MutOp) : Prop :=
  (∀ i : Nat, i ≤ s.historyPointer →
    (applyMut op s).history[i]? = s.history[i]?) ∧
  (applyMut op s).history[s.historyPointer]? = some s.cells

/-! ## Codec theorems -/

theorem digitChar_toNat {d : Nat} (h : d < 10) : (digitChar d).toNat = 48 + d := by
  interval_cases d <;> rfl

theorem natDigitsAux_irrel :
    ∀ n f1 f2 : Nat, n < f1 → n < f2 → natDigitsAux f1 n = natDigitsAux f2 n := by
  intro n
  induction n using Nat.strong_induction_on with
  | _ n ih =>
    intro f1 f2 h1 h2
    obtain ⟨g1, rfl⟩ : ∃ g1, f1 = g1 + 1 := ⟨f1 - 1, by omega⟩
    obtain ⟨g2, rfl⟩ : ∃ g2, f2 = g2 + 1 := ⟨f2 - 1, by omega⟩
    by_cases hn : n < 10
    · simp only [natDigitsAux, if_pos hn]
    · simp only [natDigitsAux, if_neg hn]
      rw [ih (n / 10) (Nat.div_lt_self (by omega) (by omega)) g1 g2
        (by omega) (by omega)]

/-- Recursion equation `natDigits` satisfies (the fuel in the definition
never runs out). -/
theorem natDigits_eq (n : Nat) :
    natDigits n =
      if n < 10 then [digitChar n]
      else natDigits (n / 10) ++ [digitChar (n % 10)] := by
  by_cases hn : n < 10
  · rw [if_pos hn]
    show natDigitsAux (n + 1) n = _
    rw [natDigitsAux, if_pos hn]
  · rw [if_neg hn]
    show natDigitsAux (n + 1) n
      = natDigitsAux (n / 10 + 1) (n / 10) ++ [digitChar (n % 10)]
    conv_lhs => rw [natDigitsAux]
    rw [if_neg hn,
      natDigitsAux_irrel (n / 10) n (n / 10 + 1) (by omega) (by omega)]

theorem natDigits_ne_nil (n : Nat) : natDigits n ≠ [] := by
  rw [natDigits_eq]
  split <;> simp

theorem natDigits_digit : ∀ n : Nat, ∀ c ∈ natDigits n, 48 ≤ c.toNat ∧ c.toNat ≤ 57 := by
  intro n
  induction n using Nat.strong_induction_on with
  | _ n ih =>
    intro c hc
    rw [natDigits_eq] at hc
    split at hc
    · next h =>
      simp only [List.mem_singleton] at hc
      subst hc
      rw [digitChar_toNat h]
      omega
    · next h =>
      rcases List.mem_append.mp hc with h1 | h2
      · exact ih (n / 10) (Nat.div_lt_self (by omega) (by omega)) c h1
      · simp only [List.mem_singleton] at h2
        subst h2
        rw [digitChar_toNat (Nat.mod_lt _ (by omega))]
        omega

theorem comma_not_mem_natDigits (n : Nat) : ',' ∉ natDigits n := by
  intro h
  have h2 := natDigits_digit n ',' h
  have h3 : (','.toNat) = 44 := rfl
  omega

theorem comma_not_mem_intChars (i : Int) : ',' ∉ intChars i := by
  unfold intChars
  split
  · intro h
    rcases List.mem_cons.mp h with h1 | h2
    · exact absurd h1 (by decide)
    · exact comma_not_mem_natDigits _ h2
  · exact comma_not_mem_natDigits _

theorem digitVal_digitChar {d : Nat} (h : d < 10) : digitVal (digitChar d) = some d := by
  unfold digitVal
  rw [if_pos (by rw [digitChar_toNat h]; omega), digitChar_toNat h]
  congr 1
  omega

theorem parseDigits_append (l1 l2 : List Char) :
    ∀ a, parseDigits (l1 ++ l2) a = (parseDigits l1 a).bind (fun m => parseDigits l2 m) := by
  induction l1 with
  | nil => intro a; simp [parseDigits]
  | cons c cs ih =>
    intro a
    simp only [List.cons_append, parseDigits]
    cases digitVal c with
    | none => simp
    | some d => simp [ih]

theorem parseDigits_natDigits :
    ∀ n a : Nat, parseDigits (natDigits n) a = some (a * 10 ^ (natDigits n).length + n) := by
  intro n
  induction n using Nat.strong_induction_on with
  | _ n ih =>
    intro a
    rw [natDigits_eq]
    split
    · next h =>
      simp [parseDigits, digitVal_digitChar h]
    · next h =>
      rw [parseDigits_append, ih (n / 10) (Nat.div_lt_self (by omega) (by omega))]
      simp only [parseDigits, digitVal_digitChar (Nat.mod_lt _ (by omega)),
        List.length_append, List.length_singleton, Option.some_bind]
      congr 1
      have hmod : n / 10 * 10 + n % 10 = n := by omega
      calc (a * 10 ^ (natDigits (n / 10)).length + n / 10) * 10 + n % 10
          = a * (10 ^ (natDigits (n / 10)).length * 10) + (n / 10 * 10 + n % 10) := by
            ring
        _ = a * 10 ^ ((natDigits (n / 10)).length + 1) + n := by rw [← pow_succ, hmod]

theorem digitsNum_natDigits (n : Nat) : digitsNum (natDigits n) = some n := by
  obtain ⟨c, cs, hcc⟩ := List.exists_cons_of_ne_nil (natDigits_ne_nil n)
  have hp := parseDigits_natDigits n 0
  unfold digitsNum
  rw [hcc] at hp ⊢
  rw [hp]
  simp

theorem jsNumber_intChars (i : Int) : jsNumber (intChars i) = some i := by
  by_cases h : i < 0
  · have hic : intChars i = '-' :: natDigits i.natAbs := by
      unfold intChars
      rw [if_pos h]
    rw [hic]
    simp only [jsNumber]
    rw [if_pos trivial, digitsNum_natDigits]
    show some (-(i.natAbs : Int)) = some i
    congr 1
    omega
  · have hic : intChars i = natDigits i.natAbs := by
      unfold intChars
      rw [if_neg h]
    obtain ⟨c, cs, hcc⟩ := List.exists_cons_of_ne_nil (natDigits_ne_nil i.natAbs)
    have hc : 48 ≤ c.toNat ∧ c.toNat ≤ 57 :=
      natDigits_digit i.natAbs c (by rw [hcc]; exact List.mem_cons_self c cs)
    rw [hic, hcc]
    simp only [jsNumber]
    rw [if_neg (by
      intro hminus
      subst hminus
      have h45 : ('-').toNat = 45 := rfl
      omega)]
    rw [← hcc, digitsNum_natDigits]
    show some ((i.natAbs : Int)) = some i
    congr 1
    omega

theorem splitComma_ne_nil (l : List Char) : splitComma l ≠ [] := by
  unfold splitComma
  split
  · simp
  · split
    · simp
    · split <;> simp

theorem splitComma_append (a b : List Char) (ha : ',' ∉ a) :
    splitComma (a ++ ',' :: b) = a :: splitComma b := by
  induction a with
  | nil => simp [splitComma]
  | cons c cs ih =>
    simp only [List.mem_cons, not_or] at ha
    have hc : ¬ c = ',' := fun h => ha.1 h.symm
    have hrec := ih ha.2
    simp only [List.cons_append, splitComma, List.append_eq, if_neg hc]
    rw [hrec]

theorem splitComma_no_comma (l : List Char) (hl : ',' ∉ l) : splitComma l = [l] := by
  induction l with
  | nil => rfl
  | cons c cs ih =>
    simp only [List.mem_cons, not_or] at hl
    have hc : ¬ c = ',' := fun h => hl.1 h.symm
    simp only [splitComma, if_neg hc]
    rw [ih hl.2]

/-- Round-trip of the codec on all integer coordinates: splitting
`makeKey x y` back on the comma and re-parsing both halves recovers the
coordinates. -/
theorem parseKey_makeKey (x y : Int) :
    parseKey (makeKey x y) = (some x, some y) := by
  unfold parseKey makeKey
  show (let parts := splitComma (intChars x ++ ',' :: intChars y); _) = _
  rw [splitComma_append _ _ (comma_not_mem_intChars x),
    splitComma_no_comma _ (comma_not_mem_intChars y)]
  simp [jsNumber_intChars]

/-- Injectivity of `makeKey`: distinct positions get distinct keys (the
fill loop's visited set and the grid rely on this). -/
theorem makeKey_inj {x1 y1 x2 y2 : Int} (h : makeKey x1 y1 = makeKey x2 y2) :
    x1 = x2 ∧ y1 = y2 := by
  have h1 := parseKey_makeKey x1 y1
  have h2 := parseKey_makeKey x2 y2
  rw [h, h2] at h1
  simp only [Prod.mk.injEq, Option.some.injEq] at h1
  exact ⟨h1.1.symm, h1.2.symm⟩

/-! ## Grid theorems -/

theorem gget_nil (k : String) : gget [] k = none := rfl

theorem gget_cons (e : String × String) (es : Grid) (k : String) :
    gget (e :: es) k = if e.1 = k then some e.2 else gget es k := by
  by_cases h : e.1 = k
  · rw [if_pos h]
    unfold gget
    rw [List.find?_cons_of_pos _ (by simp [h])]
    rfl
  · rw [if_neg h]
    unfold gget
    rw [List.find?_cons_of_neg _ (by simp [h])]

theorem ghas_nil (k : String) : ghas [] k = false := rfl

theorem ghas_cons (e : String × String) (es : Grid) (k : String) :
    ghas (e :: es) k = ((e.1 == k) || ghas es k) := rfl

theorem ghas_iff_mem (g : Grid) (k : String) : ghas g k = true ↔ k ∈ g.map Prod.fst := by
  unfold ghas
  rw [List.any_eq_true]
  constructor
  · rintro ⟨e, he, hek⟩
    exact List.mem_map.mpr ⟨e, he, beq_iff_eq.mp hek⟩
  · rintro h
    obtain ⟨e, he, hek⟩ := List.mem_map.mp h
    exact ⟨e, he, beq_iff_eq.mpr hek⟩

theorem gset_of_has (g : Grid) (k v : String) (h : ghas g k = true) :
    gset g k v = g.map (fun e => if e.1 == k then (k, v) else e) := by
  unfold gset
  rw [if_pos h]

theorem gset_of_not_has (g : Grid) (k v : String) (h : ¬ ghas g k = true) :
    gset g k v = g ++ [(k, v)] := by
  unfold gset
  rw [if_neg h]

theorem map_set_of_not_has (es : Grid) (k v : String) (h : ¬ ghas es k = true) :
    es.map (fun e => if e.1 == k then (k, v) else e) = es := by
  induction es with
  | nil => rfl
  | cons e es ih =>
    rw [ghas_cons] at h
    simp only [Bool.or_eq_true, not_or] at h
    rw [List.map_cons, if_neg (by simp [h.1]), ih (by simp [h.2])]

theorem gset_cons (e : String × String) (es : Grid) (k v : String) :
    gset (e :: es) k v =
      (if e.1 = k then (k, v) else e) ::
        (if e.1 = k then es.map (fun x => if x.1 == k then (k, v) else x)
         else gset es k v) := by
  by_cases hek : e.1 = k
  · rw [gset_of_has _ _ _ (by rw [ghas_cons]; simp [hek])]
    rw [List.map_cons, if_pos (beq_iff_eq.mpr hek), if_pos hek, if_pos hek]
  · by_cases hhas : ghas es k = true
    · rw [gset_of_has _ _ _ (by rw [ghas_cons]; simp [hhas]),
        gset_of_has _ _ _ hhas]
      rw [List.map_cons, if_neg (by simp [hek]), if_neg hek, if_neg hek]
    · rw [gset_of_not_has _ _ _ (by rw [ghas_cons]; simp [hek, hhas]),
        gset_of_not_has _ _ _ hhas]
      rw [List.cons_append, if_neg hek, if_neg hek]

theorem gget_gset_self (g : Grid) (k v : String) : gget (gset g k v) k = some v := by
  induction g with
  | nil =>
    rw [gset_of_not_has _ _ _ (by simp [ghas])]
    simp [gget_cons]
  | cons e es ih =>
    rw [gset_cons]
    by_cases hek : e.1 = k
    · rw [if_pos hek, gget_cons]
      simp
    · rw [if_neg hek, if_neg hek, gget_cons, if_neg hek]
      exact ih

theorem gget_gset_ne (g : Grid) (k v k' : String) (h : k' ≠ k) :
    gget (gset g k v) k' = gget g k' := by
  induction g with
  | nil =>
    rw [gset_of_not_has _ _ _ (by simp [ghas])]
    rw [show ([] : Grid) ++ [(k, v)] = [(k, v)] from rfl, gget_cons,
      if_neg (show ¬ (k, v).1 = k' from fun hc => h hc.symm)]
  | cons e es ih =>
    rw [gset_cons]
    by_cases hek : e.1 = k
    · rw [if_pos hek, if_pos hek, gget_cons, gget_cons,
        if_neg (show ¬ (k, v).1 = k' from fun hc => h hc.symm),
        if_neg (show ¬ e.1 = k' from hek ▸ fun hc => h hc.symm)]
      by_cases hhas : ghas es k = true
      · rw [gset_of_has _ _ _ hhas] at ih
        exact ih
      · rw [map_set_of_not_has _ _ _ hhas]
    · rw [if_neg hek, if_neg hek, gget_cons, gget_cons]
      by_cases he' : e.1 = k'
      · rw [if_pos he', if_pos he']
      · rw [if_neg he', if_neg he']
        exact ih

theorem gdel_cons (e : String × String) (es : Grid) (k : String) :
    gdel (e :: es) k = if e.1 = k then gdel es k else e :: gdel es k := by
  by_cases hek : e.1 = k
  · rw [if_pos hek]
    unfold gdel
    rw [List.filter_cons_of_neg (by simp [hek])]
  · rw [if_neg hek]
    unfold gdel
    rw [List.filter_cons_of_pos (by simp [hek])]

theorem gget_gdel_self (g : Grid) (k : String) : gget (gdel g k) k = none := by
  induction g with
  | nil => rfl
  | cons e es ih =>
    rw [gdel_cons]
    by_cases hek : e.1 = k
    · rw [if_pos hek]
      exact ih
    · rw [if_neg hek, gget_cons, if_neg hek]
      exact ih

theorem gget_gdel_ne (g : Grid) (k k' : String) (h : k' ≠ k) :
    gget (gdel g k) k' = gget g k' := by
  induction g with
  | nil => rfl
  | cons e es ih =>
    rw [gdel_cons]
    by_cases hek : e.1 = k
    · rw [if_pos hek, gget_cons, if_neg (show ¬ e.1 = k' from hek ▸ fun hc => h hc.symm)]
      exact ih
    · rw [if_neg hek, gget_cons, gget_cons]
      by_cases he' : e.1 = k'
      · rw [if_pos he', if_pos he']
      · rw [if_neg he', if_neg he']
        exact ih

theorem keysNodup_nil : keysNodup [] := List.nodup_nil

theorem keysNodup_gset (g : Grid) (k v : String) (h : keysNodup g) :
    keysNodup (gset g k v) := by
  unfold gset
  split
  · next hhas =>
    unfold keysNodup
    have hmap : (g.map (fun e => if e.1 == k then (k, v) else e)).map Prod.fst
        = g.map Prod.fst := by
      rw [List.map_map]
      apply List.map_congr_left
      intro e _
      simp only [Function.comp_apply]
      by_cases hek : e.1 = k
      · rw [if_pos (beq_iff_eq.mpr hek), hek]
      · rw [if_neg (by simp [hek])]
    rw [hmap]
    exact h
  · next hhas =>
    unfold keysNodup
    rw [List.map_append]
    simp only [List.map_cons, List.map_nil]
    rw [List.nodup_append]
    refine ⟨h, List.nodup_singleton k, ?_⟩
    intro a ha hb
    simp only [List.mem_singleton] at hb
    have hnm : k ∉ g.map Prod.fst := fun hmem => hhas ((ghas_iff_mem g k).mpr hmem)
    exact hnm (hb ▸ ha)

theorem keysNodup_gdel (g : Grid) (k : String) (h : keysNodup g) :
    keysNodup (gdel g k) := by
  unfold keysNodup gdel
  exact List.Nodup.sublist ((List.filter_sublist g).map Prod.fst) h

/-! ## History and invariant lemmas -/

theorem pushSnapshot_cells (s : EngineState) (c : Grid) :
    (pushSnapshot s c).cells = c := rfl

theorem pushSnapshot_history (s : EngineState) (c : Grid) :
    (pushSnapshot s c).history
      = s.history.take (s.historyPointer + 1) ++ [c] := rfl

theorem pushSnapshot_length (s : EngineState) (c : Grid)
    (h : s.historyPointer < s.history.length) :
    (pushSnapshot s c).history.length = s.historyPointer + 2 := by
  rw [pushSnapshot_history, List.length_append, List.length_take]
  simp only [List.length_singleton]
  omega

theorem pushSnapshot_pointer (s : EngineState) (c : Grid) :
    (pushSnapshot s c).historyPointer = (pushSnapshot s c).history.length - 1 := rfl

theorem pushSnapshot_keeps (s : EngineState) (c : Grid)
    (h : s.historyPointer < s.history.length) :
    ∀ i : Nat, i ≤ s.historyPointer →
      (pushSnapshot s c).history[i]? = s.history[i]? := by
  intro i hi
  rw [pushSnapshot_history, List.getElem?_append,
    if_pos (by rw [List.length_take]; omega)]
  rw [List.getElem?_take, if_pos (by omega)]

theorem pushSnapshot_top (s : EngineState) (c : Grid)
    (h : s.historyPointer < s.history.length) :
    (pushSnapshot s c).history[s.historyPointer + 1]? = some c := by
  rw [pushSnapshot_history,
    List.getElem?_append_right (by rw [List.length_take]; omega)]
  rw [List.length_take]
  have hz : s.historyPointer + 1 - (s.historyPointer + 1) ⊓ s.history.length = 0 := by
    omega
  rw [hz]
  rfl

theorem pushSnapshot_inv (s : EngineState) (c : Grid)
    (h : s.historyPointer < s.history.length) : Inv (pushSnapshot s c) := by
  have hlen := pushSnapshot_length s c h
  constructor
  · rw [pushSnapshot_pointer, hlen]
    omega
  · rw [pushSnapshot_pointer, hlen]
    show (pushSnapshot s c).history[s.historyPointer + 1]? = some (pushSnapshot s c).cells
    rw [pushSnapshot_cells]
    exact pushSnapshot_top s c h

theorem setCellOp_noop {s : EngineState} {x y : Int}
    (h : gget s.cells (makeKey x y) = targetValue s) : setCellOp x y s = s := by
  unfold setCellOp
  rw [if_pos h]

theorem setCellOp_push {s : EngineState} {x y : Int}
    (h : ¬ gget s.cells (makeKey x y) = targetValue s) :
    setCellOp x y s = pushSnapshot s (setCellNewCells s x y) := by
  unfold setCellOp
  rw [if_neg h]

theorem fillOp_noop {s : EngineState} {x y : Int}
    (h : gget s.cells (makeKey x y) = some s.selectedColorId) : fillOp x y s = s := by
  unfold fillOp
  rw [if_pos h]

theorem fillOp_push {s : EngineState} {x y : Int}
    (h : ¬ gget s.cells (makeKey x y) = some s.selectedColorId) :
    fillOp x y s = pushSnapshot s (fillNewCells s x y) := by
  unfold fillOp
  rw [if_neg h]

theorem clearBoardOp_push (s : EngineState) :
    clearBoardOp s = pushSnapshot s [] := rfl

theorem applyMut_noop {op : MutOp} {s : EngineState} (h : isNoop op s) :
    applyMut op s = s := by
  cases op with
  | cell x y => exact setCellOp_noop h
  | flood x y => exact fillOp_noop h
  | clear => exact h.elim

theorem applyMut_push {op : MutOp} {s : EngineState} (h : ¬ isNoop op s) :
    applyMut op s = pushSnapshot s ((applyMut op s).cells) := by
  cases op with
  | cell x y =>
    simp only [applyMut]
    rw [setCellOp_push h]
    rfl
  | flood x y =>
    simp only [applyMut]
    rw [fillOp_push h]
    rfl
  | clear => rfl

theorem applyMut_inv (op : MutOp) {s : EngineState} (hInv : Inv s) :
    Inv (applyMut op s) := by
  by_cases h : isNoop op s
  · rw [applyMut_noop h]
    exact hInv
  · rw [applyMut_push h]
    exact pushSnapshot_inv _ _ hInv.1

theorem undoOp_inv {s : EngineState} (h : Inv s) : Inv (undoOp s) := by
  unfold undoOp
  split
  · next hpos =>
    obtain ⟨hlt, _⟩ := h
    constructor
    · show s.historyPointer - 1 < s.history.length
      omega
    · show s.history[s.historyPointer - 1]?
        = some (s.history.getD (s.historyPointer - 1) [])
      rw [List.getD_eq_getElem?_getD, List.getElem?_eq_getElem (by omega)]
      rfl
  · exact h

theorem redoOp_inv {s : EngineState} (h : Inv s) : Inv (redoOp s) := by
  unfold redoOp
  split
  · next hlt =>
    constructor
    · show s.historyPointer + 1 < s.history.length
      omega
    · show s.history[s.historyPointer + 1]?
        = some (s.history.getD (s.historyPointer + 1) [])
      rw [List.getD_eq_getElem?_getD, List.getElem?_eq_getElem (by omega)]
      rfl
  · exact h

theorem loadPatternOp_inv (p : Pattern) (s : EngineState) :
    Inv (loadPatternOp p s) := ⟨Nat.one_pos, rfl⟩

theorem inv_of_reachable {s : EngineState} (h : Reachable s) : Inv s := by
  induction h with
  | init b c now => exact ⟨Nat.one_pos, rfl⟩
  | setCell x y _ ih => exact applyMut_inv (MutOp.cell x y) ih
  | fill x y _ ih => exact applyMut_inv (MutOp.flood x y) ih
  | clear _ ih => exact applyMut_inv MutOp.clear ih
  | setColor id _ ih => exact ih
  | setTool t _ ih => exact ih
  | undo _ ih => exact undoOp_inv ih
  | redo _ ih => exact redoOp_inv ih
  | load p _ ih => exact loadPatternOp_inv p _

/-! ## Unique-key invariant -/

theorem keysNodup_foldl_gset (l : List (String × String)) :
    ∀ m : Grid, keysNodup m →
      keysNodup (l.foldl (fun m kv => gset m kv.1 kv.2) m) := by
  induction l with
  | nil => exact fun m hm => hm
  | cons kv rest ih => exact fun m hm => ih _ (keysNodup_gset _ _ _ hm)

theorem keysNodup_recordToMap (r : List (String × String)) :
    keysNodup (recordToMap r) :=
  keysNodup_foldl_gset r [] keysNodup_nil

theorem floodLoop_keysNodup (b : Board) (t : Option String) (sel : String) :
    ∀ (q : List Coord) (v : Finset Coord) (g : Grid),
      keysNodup g → keysNodup (floodLoop b t sel q v g).1 := by
  intro q v g
  induction q, v, g using floodLoop.induct b t sel with
  | case1 v g =>
    intro hg
    simp only [floodLoop]
    exact hg
  | case2 p rest v g h1 ih =>
    intro hg
    rw [floodLoop]
    rw [if_pos h1]
    exact ih hg
  | case3 p rest v g h1 h2 ih =>
    intro hg
    rw [floodLoop, if_neg h1, if_pos h2]
    exact ih hg
  | case4 p rest v g h1 h2 h3 ih =>
    intro hg
    rw [floodLoop, if_neg h1, if_neg h2, if_pos h3]
    exact ih (keysNodup_gset _ _ _ hg)
  | case5 p rest v g h1 h2 h3 ih =>
    intro hg
    rw [floodLoop, if_neg h1, if_neg h2, if_neg h3]
    exact ih hg

theorem keysNodup_getD (H : List Grid) (n : Nat) (hH : ∀ g ∈ H, keysNodup g) :
    keysNodup (H.getD n []) := by
  by_cases hr : n < H.length
  · rw [List.getD_eq_getElem?_getD, List.getElem?_eq_getElem hr]
    exact hH _ (List.getElem_mem hr)
  · rw [List.getD_eq_getElem?_getD, List.getElem?_eq_none (by omega)]
    exact keysNodup_nil

theorem keysNodup_setCellNewCells (s : EngineState) (x y : Int)
    (h : keysNodup s.cells) : keysNodup (setCellNewCells s x y) := by
  unfold setCellNewCells
  cases targetValue s with
  | none => exact keysNodup_gdel _ _ h
  | some v =>
    show keysNodup (if v = "" then gdel s.cells (makeKey x y)
      else gset s.cells (makeKey x y) v)
    by_cases hv : v = ""
    · rw [if_pos hv]
      exact keysNodup_gdel _ _ h
    · rw [if_neg hv]
      exact keysNodup_gset _ _ _ h

theorem setCellOp_cells_nodup {s : EngineState} {x y : Int}
    (h : keysNodup s.cells) : keysNodup (setCellOp x y s).cells := by
  by_cases hn : gget s.cells (makeKey x y) = targetValue s
  · rw [setCellOp_noop hn]
    exact h
  · rw [setCellOp_push hn]
    exact keysNodup_setCellNewCells s x y h

theorem fillOp_cells_nodup {s : EngineState} {x y : Int}
    (h : keysNodup s.cells) : keysNodup (fillOp x y s).cells := by
  by_cases hn : gget s.cells (makeKey x y) = some s.selectedColorId
  · rw [fillOp_noop hn]
    exact h
  · rw [fillOp_push hn]
    exact floodLoop_keysNodup _ _ _ _ _ _ h

theorem nodup_push_any {s : EngineState} (op : MutOp)
    (ih : keysNodup s.cells ∧ ∀ g ∈ s.history, keysNodup g)
    (hc : keysNodup (applyMut op s).cells) :
    keysNodup (applyMut op s).cells ∧
      ∀ g ∈ (applyMut op s).history, keysNodup g := by
  by_cases hn : isNoop op s
  · rw [applyMut_noop hn] at hc ⊢
    exact ⟨hc, ih.2⟩
  · refine ⟨hc, ?_⟩
    intro g hg
    rw [applyMut_push hn, pushSnapshot_history] at hg
    rcases List.mem_append.mp hg with h1 | h2
    · exact ih.2 g (List.take_subset _ _ h1)
    · simp only [List.mem_singleton] at h2
      rw [h2]
      exact hc

/-- Every reachable state has duplicate-free keys in the live grid and in
every history snapshot (as real JavaScript maps do). -/
theorem nodup_of_reachable {s : EngineState} (h : Reachable s) :
    keysNodup s.cells ∧ ∀ g ∈ s.history, keysNodup g := by
  induction h with
  | init b c now =>
    refine ⟨keysNodup_nil, ?_⟩
    intro g hg
    simp only [initState, List.mem_singleton] at hg
    rw [hg]
    exact keysNodup_nil
  | setCell x y _ ih =>
    exact nodup_push_any (MutOp.cell x y) ih (setCellOp_cells_nodup ih.1)
  | fill x y _ ih =>
    exact nodup_push_any (MutOp.flood x y) ih (fillOp_cells_nodup ih.1)
  | clear _ ih =>
    exact nodup_push_any MutOp.clear ih keysNodup_nil
  | setColor id _ ih => exact ih
  | setTool t _ ih => exact ih
  | undo _ ih =>
    unfold undoOp
    split
    · exact ⟨keysNodup_getD _ _ ih.2, ih.2⟩
    · exact ih
  | redo _ ih =>
    unfold redoOp
    split
    · exact ⟨keysNodup_getD _ _ ih.2, ih.2⟩
    · exact ih
  | load p _ ih =>
    refine ⟨keysNodup_recordToMap _, ?_⟩
    intro g hg
    simp only [loadPatternOp, List.mem_singleton] at hg
    rw [hg]
    exact keysNodup_recordToMap _

/-! ## setCell characterization -/

theorem setCellNewCells_get_self (s : EngineState) (x y : Int)
    (hcolor : s.activeTool = Tool.eraser ∨ s.selectedColorId ≠ "") :
    gget (setCellNewCells s x y) (makeKey x y) = targetValue s := by
  unfold setCellNewCells targetValue
  by_cases ht : s.activeTool = Tool.eraser
  · rw [if_pos ht]
    exact gget_gdel_self _ _
  · rw [if_neg ht]
    have hv : ¬ s.selectedColorId = "" := hcolor.resolve_left ht
    show gget (if s.selectedColorId = "" then gdel s.cells (makeKey x y)
      else gset s.cells (makeKey x y) s.selectedColorId) (makeKey x y)
      = some s.selectedColorId
    rw [if_neg hv]
    exact gget_gset_self _ _ _

theorem setCellNewCells_get_ne (s : EngineState) (x y : Int) (k : String)
    (hk : k ≠ makeKey x y) :
    gget (setCellNewCells s x y) k = gget s.cells k := by
  unfold setCellNewCells
  cases targetValue s with
  | none => exact gget_gdel_ne _ _ _ hk
  | some v =>
    show gget (if v = "" then gdel s.cells (makeKey x y)
      else gset s.cells (makeKey x y) v) k = gget s.cells k
    by_cases hv : v = ""
    · rw [if_pos hv]
      exact gget_gdel_ne _ _ _ hk
    · rw [if_neg hv]
      exact gget_gset_ne _ _ _ _ hk

/-- C2 (amended).  For every in-bounds position, `setCell` computes the
target value (selected color id for paint-like tools, absence for the
eraser); when the cell already holds it nothing changes, otherwise the
new snapshot differs only at that cell, the truncated history gets
exactly one new entry with the pointer on it, and an immediate repeat of
the same call changes nothing — provided the erasing tool is active or
the selected color id is non-empty (amendment forced by JavaScript
truthiness: painting with the reachable empty-string id deletes the key
instead, so a repeated such click keeps appending history entries, see
the counterexample). -/
theorem setCell_spec_amended (s : EngineState) (x y : Int)
    (hInv : Inv s)
    (hcolor : s.activeTool = Tool.eraser ∨ s.selectedColorId ≠ "")
    (_hxy : inB s.board (x, y)) :
    SetCellSpec s x y := by
  have hself := setCellNewCells_get_self s x y hcolor
  refine ⟨fun h => setCellOp_noop h, fun h => ?_, ?_⟩
  · rw [setCellOp_push h]
    exact ⟨hself, fun k hk => setCellNewCells_get_ne s x y k hk, rfl,
      pushSnapshot_length s _ hInv.1, pushSnapshot_pointer s _⟩
  · by_cases h : gget s.cells (makeKey x y) = targetValue s
    · rw [setCellOp_noop h, setCellOp_noop h]
    · have h2 : gget (setCellOp x y s).cells (makeKey x y)
          = targetValue (setCellOp x y s) := by
        rw [setCellOp_push h]
        show gget (setCellNewCells s x y) (makeKey x y)
          = targetValue (pushSnapshot s (setCellNewCells s x y))
        rw [show targetValue (pushSnapshot s (setCellNewCells s x y))
          = targetValue s from rfl]
        exact hself
      exact setCellOp_noop h2

/-- Witness for C2 at a concrete reachable state: fresh 3×3 board,
pencil tool, color `red`, position (1, 0). -/
theorem setCell_spec_amended_witness :
    Inv (initState ⟨3, 3⟩ "red" 0) ∧
    ((initState ⟨3, 3⟩ "red" 0).activeTool = Tool.eraser ∨
      (initState ⟨3, 3⟩ "red" 0).selectedColorId ≠ "") ∧
    inB (initState ⟨3, 3⟩ "red" 0).board (1, 0) ∧
    SetCellSpec (initState ⟨3, 3⟩ "red" 0) 1 0 :=
  ⟨by decide, by decide, by decide,
    setCell_spec_amended _ 1 0 (by decide) (by decide) (by decide)⟩

/-- C2 counterexample.  With the empty string as selected color id (a
state reached by `setColor("")`) and the pencil tool, `setCell(0,0)` on
the empty in-bounds cell is not a no-op — `undefined === ""` is false —
yet `if (newVal)` is falsy, so the grid is unchanged while a history
entry is appended; the second identical call appends another one, so
`history.length` changes after the second call, contradicting the
claimed idempotence. -/
theorem setCell_empty_color_breaks_idempotence :
    inB (setColorOp "" (initState ⟨3, 3⟩ "red" 0)).board (0, 0) ∧
    Reachable (setColorOp "" (initState ⟨3, 3⟩ "red" 0)) ∧
    (setCellOp 0 0 (setCellOp 0 0 (setColorOp "" (initState ⟨3, 3⟩ "red" 0)))).history.length
      ≠ (setCellOp 0 0 (setColorOp "" (initState ⟨3, 3⟩ "red" 0))).history.length :=
  ⟨by decide, Reachable.setColor "" (Reachable.init _ _ _), by decide⟩

/-! ## New-edit, invariant and snapshot claims -/

/-- C4.  In any state satisfying the history invariant — in particular
any state reached after one or more `undo` calls — a non-no-op mutating
operation truncates the history to `pointer+1` entries, appends its new
snapshot, sets the pointer to the new last index, and an immediately
following `redo` is a no-op: every previously redoable state is
discarded. -/
theorem new_edit_discards_redo (s : EngineState) (op : MutOp)
    (hInv : Inv s) (h : ¬ isNoop op s) : NewEditSpec s op := by
  have hpush := applyMut_push h
  have hlen : (applyMut op s).history.length = s.historyPointer + 2 := by
    conv_lhs => rw [hpush]
    exact pushSnapshot_length s _ hInv.1
  have hptr : (applyMut op s).historyPointer
      = (applyMut op s).history.length - 1 := by
    conv_lhs => rw [hpush]
    conv_rhs => rw [hpush]
    exact pushSnapshot_pointer s _
  refine ⟨?_, hlen, hptr, ?_⟩
  · conv_lhs => rw [hpush]
    rfl
  · unfold redoOp
    rw [if_neg (by omega)]

/-- Witness for C4: state after one paint and one undo on a fresh 3×3
board; the new edit is `clearBoard` (never a no-op). -/
theorem new_edit_discards_redo_witness :
    Inv (undoOp (setCellOp 0 0 (initState ⟨3, 3⟩ "red" 0))) ∧
    ¬ isNoop MutOp.clear (undoOp (setCellOp 0 0 (initState ⟨3, 3⟩ "red" 0))) ∧
    NewEditSpec (undoOp (setCellOp 0 0 (initState ⟨3, 3⟩ "red" 0))) MutOp.clear :=
  ⟨by decide, by decide, new_edit_discards_redo _ _ (by decide) (by decide)⟩

/-- C5.  In every state reachable by engine operations the history
pointer is a valid index (`0 ≤ historyPointer` holds by its `Nat` type;
`historyPointer ≤ history.length - 1` is proved) and the snapshot stored
at the pointer equals the live cell grid.  (`exportPattern` is a pure
read and does not change the state.) -/
theorem history_pointer_invariant (s : EngineState) (h : Reachable s) :
    s.historyPointer ≤ s.history.length - 1 ∧
    s.history[s.historyPointer]? = some s.cells := by
  obtain ⟨h1, h2⟩ := inv_of_reachable h
  exact ⟨by omega, h2⟩

/-- Witness for C5 at the initial state. -/
theorem history_pointer_invariant_witness :
    Reachable (initState ⟨2, 2⟩ "blue" 1) ∧
    ((initState ⟨2, 2⟩ "blue" 1).historyPointer
        ≤ (initState ⟨2, 2⟩ "blue" 1).history.length - 1 ∧
      (initState ⟨2, 2⟩ "blue" 1).history[(initState ⟨2, 2⟩ "blue" 1).historyPointer]?
        = some (initState ⟨2, 2⟩ "blue" 1).cells) :=
  ⟨Reachable.init _ _ _, history_pointer_invariant _ (Reachable.init _ _ _)⟩

/-- C8.  Every mutating operation preserves, unchanged, every history
entry up to the old pointer — in particular the snapshot published to
the presentation layer before the mutation (`history[historyPointer]`,
which equals the old live grid) still holds the pre-mutation contents:
in this pure embedding of the copy-on-write source (`new Map(cells)`
before any write), previously published snapshots are never mutated. -/
theorem mutation_preserves_snapshots (s : EngineState) (op : MutOp)
    (hInv : Inv s) : SnapshotsPreserved s op := by
  by_cases h : isNoop op s
  · unfold SnapshotsPreserved
    rw [applyMut_noop h]
    exact ⟨fun i _ => rfl, hInv.2⟩
  · constructor
    · intro i hi
      conv_lhs => rw [applyMut_push h]
      exact pushSnapshot_keeps s _ hInv.1 i hi
    · conv_lhs => rw [applyMut_push h]
      rw [pushSnapshot_keeps s _ hInv.1 _ le_rfl]
      exact hInv.2

/-- Witness for C8: painting (2,2) after painting (1,1) on a fresh 3×3
board. -/
theorem mutation_preserves_snapshots_witness :
    Inv (setCellOp 1 1 (initState ⟨3, 3⟩ "red" 0)) ∧
    SnapshotsPreserved (setCellOp 1 1 (initState ⟨3, 3⟩ "red" 0)) (MutOp.cell 2 2) :=
  ⟨by decide, mutation_preserves_snapshots _ _ (by decide)⟩

/-! ## Codec claim, out-of-bounds behavior, load/export -/

/-- C9.  For all non-negative integers x and y, decoding the encoded key
gives back the pair: `parseKey (makeKey x y) = (x, y)`, `makeKey`
producing the canonical decimal-comma-decimal key used as the external
serialization key. -/
theorem codec_roundtrip_nonneg (x y : Int) (_hx : 0 ≤ x) (_hy : 0 ≤ y) :
    parseKey (makeKey x y) = (some x, some y) :=
  parseKey_makeKey x y

/-- Witness for C9 at (999, 42). -/
theorem codec_roundtrip_nonneg_witness :
    (0 : Int) ≤ 999 ∧ (0 : Int) ≤ 42 ∧
    parseKey (makeKey 999 42) = (some 999, some 42) :=
  ⟨by decide, by decide, codec_roundtrip_nonneg 999 42 (by decide) (by decide)⟩

/-- C6 (amended).  An out-of-bounds `fill` leaves the cell grid
unchanged — the loop's bounds check precedes every write, so no key for
the out-of-bounds coordinate is ever created (a duplicate history entry
is still appended when the start cell's color differs from the
selection).  `setCell`, by contrast, performs no bounds check and
writes the out-of-bounds key like any in-bounds one (counterexample
below); out-of-bounds input to it is caller error. -/
theorem fill_out_of_bounds_leaves_grid (s : EngineState) (x y : Int)
    (h : ¬ inB s.board (x, y)) : (fillOp x y s).cells = s.cells := by
  by_cases hn : gget s.cells (makeKey x y) = some s.selectedColorId
  · rw [fillOp_noop hn]
  · rw [fillOp_push hn, pushSnapshot_cells]
    unfold fillNewCells
    rw [floodLoop, if_neg (Finset.not_mem_empty _), if_pos h, floodLoop]

/-- Witness for C6 at (-5, 0) on a 3×3 board. -/
theorem fill_out_of_bounds_leaves_grid_witness :
    ¬ inB (initState ⟨3, 3⟩ "red" 0).board (-5, 0) ∧
    (fillOp (-5) 0 (initState ⟨3, 3⟩ "red" 0)).cells
      = (initState ⟨3, 3⟩ "red" 0).cells :=
  ⟨by decide, fill_out_of_bounds_leaves_grid _ (-5) 0 (by decide)⟩

/-- C6 counterexample.  `setCell(-1, 0)` with the pencil tool on a fresh
3×3 board stores the selected color under the key "-1,0": a cell key is
created for an out-of-bounds coordinate, so the claimed
never-corrupts-the-grid policy does not hold for `setCell`. -/
theorem setCell_out_of_bounds_creates_key :
    ¬ inB (initState ⟨3, 3⟩ "red" 0).board (-1, 0) ∧
    gget (initState ⟨3, 3⟩ "red" 0).cells (makeKey (-1) 0) = none ∧
    gget (setCellOp (-1) 0 (initState ⟨3, 3⟩ "red" 0)).cells (makeKey (-1) 0)
      = some "red" :=
  ⟨by decide, rfl, by decide⟩

theorem foldl_gset_append :
    ∀ (l : List (String × String)) (m : Grid),
      (∀ kv ∈ l, ¬ ghas m kv.1 = true) → keysNodup l →
      l.foldl (fun m kv => gset m kv.1 kv.2) m = m ++ l := by
  intro l
  induction l with
  | nil =>
    intro m _ _
    simp
  | cons kv rest ih =>
    intro m hdisj hnd
    have hhd : keysNodup rest ∧ kv.1 ∉ rest.map Prod.fst := by
      unfold keysNodup at hnd ⊢
      simp only [List.map_cons, List.nodup_cons] at hnd
      exact ⟨hnd.2, hnd.1⟩
    simp only [List.foldl_cons]
    rw [gset_of_not_has _ _ _ (hdisj kv (List.mem_cons_self _ _))]
    rw [ih (m ++ [(kv.1, kv.2)]) ?_ hhd.1]
    · rw [List.append_assoc]
      rfl
    · intro kv' hkv'
      have h1 := hdisj kv' (List.mem_cons_of_mem _ hkv')
      have h2 : kv.1 ≠ kv'.1 := by
        intro he
        exact hhd.2 (he ▸ List.mem_map_of_mem Prod.fst hkv')
      intro hc
      unfold ghas at hc h1
      rw [List.any_append] at hc
      simp only [Bool.or_eq_true] at hc
      rcases hc with hc | hc
      · exact h1 hc
      · simp only [List.any_cons, List.any_nil, Bool.or_false] at hc
        exact h2 (beq_iff_eq.mp hc)

theorem recordToMap_of_nodup (r : List (String × String)) (h : keysNodup r) :
    recordToMap r = r := by
  unfold recordToMap
  rw [foldl_gset_append r [] (fun kv _ => by simp [ghas]) h]
  rfl

/-- C7 (amended).  `loadPattern` cannot crash (the model is a total
function) and performs no validation at all: the record's entries —
malformed ones included — are loaded verbatim, so every well-formed
entry loads, and history resets to the single new snapshot with pointer
0.  Malformed entries are not skipped (counterexample below). -/
theorem loadPattern_loads_verbatim (p : Pattern) (s : EngineState)
    (h : keysNodup p.cells) :
    (loadPatternOp p s).cells = p.cells ∧
    (loadPatternOp p s).history = [(loadPatternOp p s).cells] ∧
    (loadPatternOp p s).historyPointer = 0 := by
  have hc : (loadPatternOp p s).cells = p.cells := by
    show recordToMap p.cells = p.cells
    exact recordToMap_of_nodup _ h
  exact ⟨hc, rfl, rfl⟩

/-- Witness for C7: a pattern holding one malformed and one well-formed
entry loads both. -/
theorem loadPattern_loads_verbatim_witness :
    keysNodup (Pattern.mk "p1" ⟨"t", "a", "Easy", 0⟩
      [("abc", "red"), ("1,1", "blue")]).cells ∧
    ((loadPatternOp (Pattern.mk "p1" ⟨"t", "a", "Easy", 0⟩
          [("abc", "red"), ("1,1", "blue")]) (initState ⟨3, 3⟩ "red" 0)).cells
        = (Pattern.mk "p1" ⟨"t", "a", "Easy", 0⟩
          [("abc", "red"), ("1,1", "blue")]).cells ∧
      (loadPatternOp (Pattern.mk "p1" ⟨"t", "a", "Easy", 0⟩
          [("abc", "red"), ("1,1", "blue")]) (initState ⟨3, 3⟩ "red" 0)).history
        = [(loadPatternOp (Pattern.mk "p1" ⟨"t", "a", "Easy", 0⟩
          [("abc", "red"), ("1,1", "blue")]) (initState ⟨3, 3⟩ "red" 0)).cells] ∧
      (loadPatternOp (Pattern.mk "p1" ⟨"t", "a", "Easy", 0⟩
          [("abc", "red"), ("1,1", "blue")])
          (initState ⟨3, 3⟩ "red" 0)).historyPointer = 0) :=
  ⟨by decide, loadPattern_loads_verbatim _ _ (by decide)⟩

/-- C7 counterexample.  The key "abc" does not decode to two integers
(both `parseKey` components are NaN), yet after `loadPattern` the entry
is present in the cell grid: the engine does not skip malformed
entries. -/
theorem loadPattern_keeps_malformed_entry :
    parseKey "abc" = (none, none) ∧
    gget (loadPatternOp (Pattern.mk "p1" ⟨"t", "a", "Easy", 0⟩ [("abc", "red")])
        (initState ⟨3, 3⟩ "red" 0)).cells "abc" = some "red" :=
  ⟨by decide, by decide⟩

/-- C10.  In every reachable state, `loadPattern (exportPattern())`
leaves the cell grid extensionally unchanged (the encodings
`mapToRecord`/`recordToMap` are mutually inverse on the duplicate-free
maps the engine produces), and afterwards the history is the single
sequence holding that grid with pointer 0. -/
theorem export_load_roundtrip (s : EngineState) (newId : String) (now : Int)
    (h : Reachable s) :
    (∀ k : String,
      gget (loadPatternOp (exportPatternOp s newId now) s).cells k
        = gget s.cells k) ∧
    (loadPatternOp (exportPatternOp s newId now) s).history
      = [(loadPatternOp (exportPatternOp s newId now) s).cells] ∧
    (loadPatternOp (exportPatternOp s newId now) s).historyPointer = 0 := by
  have hnd := (nodup_of_reachable h).1
  have hcells : (loadPatternOp (exportPatternOp s newId now) s).cells
      = s.cells := by
    show recordToMap (mapToRecord s.cells) = s.cells
    rw [show mapToRecord s.cells = recordToMap s.cells from rfl]
    rw [recordToMap_of_nodup _ hnd, recordToMap_of_nodup _ hnd]
  exact ⟨fun k => by rw [hcells], rfl, rfl⟩

/-- Witness for C10 at the initial state. -/
theorem export_load_roundtrip_witness :
    Reachable (initState ⟨3, 3⟩ "red" 0) ∧
    ((∀ k : String,
        gget (loadPatternOp (exportPatternOp (initState ⟨3, 3⟩ "red" 0) "id" 7)
            (initState ⟨3, 3⟩ "red" 0)).cells k
          = gget (initState ⟨3, 3⟩ "red" 0).cells k) ∧
      (loadPatternOp (exportPatternOp (initState ⟨3, 3⟩ "red" 0) "id" 7)
          (initState ⟨3, 3⟩ "red" 0)).history
        = [(loadPatternOp (exportPatternOp (initState ⟨3, 3⟩ "red" 0) "id" 7)
            (initState ⟨3, 3⟩ "red" 0)).cells] ∧
      (loadPatternOp (exportPatternOp (initState ⟨3, 3⟩ "red" 0) "id" 7)
          (initState ⟨3, 3⟩ "red" 0)).historyPointer = 0) :=
  ⟨Reachable.init _ _ _, export_load_roundtrip _ "id" 7 (Reachable.init _ _ _)⟩

/-! ## Flood-fill correctness (claim C1) -/

theorem mem_neighborsRev {p q : Coord} : q ∈ neighborsRev p ↔ adjacent p q := by
  simp only [neighborsRev, adjacent, List.mem_cons, List.mem_singleton,
    List.not_mem_nil, or_false]
  tauto

theorem makeKey_coord_inj {p q : Coord} (h : makeKey p.1 p.2 = makeKey q.1 q.2) :
    p = q := by
  obtain ⟨h1, h2⟩ := makeKey_inj h
  exact Prod.ext h1 h2

/-- Loop invariants of the flood fill and what they yield at
termination: the visited set is exactly the 4-connected region of the
start cell, every visited cell has been recolored to the selection, and
every key away from the visited cells still holds its original color. -/
theorem floodLoop_post (b : Board) (t : Option String) (sel : String)
    (cells0 : Grid) (start : Coord) (Hs : goodCell b cells0 t start) :
    ∀ (q : List Coord) (v : Finset Coord) (g : Grid),
      (∀ r ∈ v, gget g (makeKey r.1 r.2) = some sel) →
      (∀ k : String, (∀ r ∈ v, k ≠ makeKey r.1 r.2) → gget g k = gget cells0 k) →
      (∀ r ∈ v, InRegion b cells0 t start r) →
      (∀ r ∈ q, r = start ∨ ∃ u ∈ v, adjacent u r) →
      (∀ u ∈ v, ∀ r : Coord, adjacent u r → goodCell b cells0 t r →
        r ∈ v ∨ r ∈ q) →
      (start ∈ v ∨ start ∈ q) →
      ((∀ p : Coord,
          p ∈ (floodLoop b t sel q v g).2 ↔ InRegion b cells0 t start p) ∧
       (∀ r ∈ (floodLoop b t sel q v g).2,
         gget (floodLoop b t sel q v g).1 (makeKey r.1 r.2) = some sel) ∧
       (∀ k : String,
         (∀ r ∈ (floodLoop b t sel q v g).2, k ≠ makeKey r.1 r.2) →
         gget (floodLoop b t sel q v g).1 k = gget cells0 k)) := by
  intro q v g
  induction q, v, g using floodLoop.induct b t sel with
  | case1 v g =>
    intro Hg1 Hg2 Hv Hq HA HB
    rw [floodLoop]
    refine ⟨?_, Hg1, Hg2⟩
    intro p
    constructor
    · exact Hv p
    · rintro ⟨_, _, hchain⟩
      have main : ∀ r : Coord,
          Relation.ReflTransGen (regionStep b cells0 t) start r → r ∈ v := by
        intro r hr
        induction hr with
        | refl =>
          rcases HB with h | h
          · exact h
          · exact absurd h (List.not_mem_nil _)
        | tail _ hstep ih2 =>
          obtain ⟨hadj, _, hgr⟩ := hstep
          rcases HA _ ih2 _ hadj hgr with h | h
          · exact h
          · exact absurd h (List.not_mem_nil _)
      exact main p hchain
  | case2 p rest v g h1 ih =>
    intro Hg1 Hg2 Hv Hq HA HB
    rw [floodLoop, if_pos h1]
    refine ih Hg1 Hg2 Hv ?_ ?_ ?_
    · intro r hr
      exact Hq r (List.mem_cons_of_mem _ hr)
    · intro u hu r hadj hgr
      rcases HA u hu r hadj hgr with h | h
      · exact Or.inl h
      · rcases List.mem_cons.mp h with he | he
        · exact Or.inl (by rw [he]; exact h1)
        · exact Or.inr he
    · rcases HB with h | h
      · exact Or.inl h
      · rcases List.mem_cons.mp h with he | he
        · exact Or.inl (by rw [he]; exact h1)
        · exact Or.inr he
  | case3 p rest v g h1 h2 ih =>
    intro Hg1 Hg2 Hv Hq HA HB
    rw [floodLoop, if_neg h1, if_pos h2]
    refine ih Hg1 Hg2 Hv ?_ ?_ ?_
    · intro r hr
      exact Hq r (List.mem_cons_of_mem _ hr)
    · intro u hu r hadj hgr
      rcases HA u hu r hadj hgr with h | h
      · exact Or.inl h
      · rcases List.mem_cons.mp h with he | he
        · exact absurd (by rw [← he]; exact hgr.1) h2
        · exact Or.inr he
    · rcases HB with h | h
      · exact Or.inl h
      · rcases List.mem_cons.mp h with he | he
        · exact absurd (by rw [← he]; exact Hs.1) h2
        · exact Or.inr he
  | case4 p rest v g h1 h2 h3 ih =>
    intro Hg1 Hg2 Hv Hq HA HB
    rw [floodLoop, if_neg h1, if_neg h2, if_pos h3]
    have hpin : inB b p := not_not.mp h2
    have hneq : ∀ r ∈ v, makeKey p.1 p.2 ≠ makeKey r.1 r.2 := by
      intro r hr hcontra
      exact h1 (by rw [makeKey_coord_inj hcontra]; exact hr)
    have hcells0 : gget cells0 (makeKey p.1 p.2) = t := by
      rw [← Hg2 _ hneq]
      exact h3
    have hgood : goodCell b cells0 t p := ⟨hpin, hcells0⟩
    have hregion : InRegion b cells0 t start p := by
      rcases Hq p (List.mem_cons_self _ _) with h | ⟨u, hu, hadj⟩
      · refine ⟨Hs, hgood, ?_⟩
        rw [h]
      · obtain ⟨_, hgu, hchain⟩ := Hv u hu
        exact ⟨Hs, hgood, hchain.tail ⟨hadj, hgu, hgood⟩⟩
    refine ih ?_ ?_ ?_ ?_ ?_ ?_
    · intro r hr
      rcases Finset.mem_insert.mp hr with he | hr'
      · rw [he]
        exact gget_gset_self _ _ _
      · rw [gget_gset_ne _ _ _ _
          (fun hc => h1 (by rw [← makeKey_coord_inj hc]; exact hr'))]
        exact Hg1 r hr'
    · intro k hk
      have hkp : k ≠ makeKey p.1 p.2 := hk p (Finset.mem_insert_self p v)
      rw [gget_gset_ne _ _ _ _ hkp]
      exact Hg2 k (fun r hr => hk r (Finset.mem_insert_of_mem hr))
    · intro r hr
      rcases Finset.mem_insert.mp hr with he | hr'
      · rw [he]
        exact hregion
      · exact Hv r hr'
    · intro r hr
      rcases List.mem_append.mp hr with hn | hr'
      · exact Or.inr ⟨p, Finset.mem_insert_self p v, mem_neighborsRev.mp hn⟩
      · rcases Hq r (List.mem_cons_of_mem _ hr') with h | ⟨u, hu, hadj⟩
        · exact Or.inl h
        · exact Or.inr ⟨u, Finset.mem_insert_of_mem hu, hadj⟩
    · intro u hu r hadj hgr
      rcases Finset.mem_insert.mp hu with he | hu'
      · refine Or.inr (List.mem_append.mpr (Or.inl (mem_neighborsRev.mpr ?_)))
        rw [← he]
        exact hadj
      · rcases HA u hu' r hadj hgr with h | h
        · exact Or.inl (Finset.mem_insert_of_mem h)
        · rcases List.mem_cons.mp h with he | he
          · exact Or.inl (by rw [he]; exact Finset.mem_insert_self p v)
          · exact Or.inr (List.mem_append.mpr (Or.inr he))
    · rcases HB with h | h
      · exact Or.inl (Finset.mem_insert_of_mem h)
      · rcases List.mem_cons.mp h with he | he
        · exact Or.inl (by rw [he]; exact Finset.mem_insert_self p v)
        · exact Or.inr (List.mem_append.mpr (Or.inr he))
  | case5 p rest v g h1 h2 h3 ih =>
    intro Hg1 Hg2 Hv Hq HA HB
    rw [floodLoop, if_neg h1, if_neg h2, if_neg h3]
    have hneq : ∀ r ∈ v, makeKey p.1 p.2 ≠ makeKey r.1 r.2 := by
      intro r hr hcontra
      exact h1 (by rw [makeKey_coord_inj hcontra]; exact hr)
    have hnotgood : ¬ goodCell b cells0 t p := by
      intro hg
      apply h3
      rw [Hg2 _ hneq]
      exact hg.2
    refine ih Hg1 Hg2 Hv ?_ ?_ ?_
    · intro r hr
      exact Hq r (List.mem_cons_of_mem _ hr)
    · intro u hu r hadj hgr
      rcases HA u hu r hadj hgr with h | h
      · exact Or.inl h
      · rcases List.mem_cons.mp h with he | he
        · exact absurd (by rw [← he]; exact hgr) hnotgood
        · exact Or.inr he
    · rcases HB with h | h
      · exact Or.inl h
      · rcases List.mem_cons.mp h with he | he
        · exact absurd (by rw [← he]; exact Hs) hnotgood
        · exact Or.inr he

/-- C1.  For every in-bounds start position on a state satisfying the
history invariant: if the color occupying the start cell (possibly
empty) already equals the selected color, `fill` is a complete no-op
with no history entry; otherwise it recolors to the selected color
exactly the maximal 4-connected region (up/down/left/right, no
diagonals, bounded by the board edges) of cells holding the start cell's
original color, leaves every cell outside that region unchanged, and
appends exactly one new history entry for the whole fill. -/
theorem fill_spec (s : EngineState) (x y : Int) (hInv : Inv s)
    (hxy : inB s.board (x, y)) : FillSpec s x y := by
  refine ⟨fun h => fillOp_noop h, fun h => ?_⟩
  rw [fillOp_push h]
  have Hs : goodCell s.board s.cells (gget s.cells (makeKey x y)) (x, y) :=
    ⟨hxy, rfl⟩
  obtain ⟨hiff, hsel, hout⟩ :=
    floodLoop_post s.board (gget s.cells (makeKey x y)) s.selectedColorId
      s.cells (x, y) Hs [(x, y)] ∅ s.cells
      (fun r hr => absurd hr (Finset.not_mem_empty _))
      (fun k _ => rfl)
      (fun r hr => absurd hr (Finset.not_mem_empty _))
      (fun r hr => Or.inl (List.mem_singleton.mp hr))
      (fun u hu => absurd hu (Finset.not_mem_empty _))
      (Or.inr (List.mem_singleton.mpr rfl))
  refine ⟨?_, ?_, rfl, pushSnapshot_length _ _ hInv.1, pushSnapshot_pointer _ _⟩
  · intro p hp
    show gget (fillNewCells s x y) (makeKey p.1 p.2) = some s.selectedColorId
    exact hsel p ((hiff p).mpr hp)
  · intro p hp
    show gget (fillNewCells s x y) (makeKey p.1 p.2)
      = gget s.cells (makeKey p.1 p.2)
    apply hout
    intro r hr hcontra
    exact hp (by rw [makeKey_coord_inj hcontra]; exact (hiff r).mp hr)

/-- Witness for C1: filling (1, 1) on a fresh 3×3 board. -/
theorem fill_spec_witness :
    Inv (initState ⟨3, 3⟩ "red" 0) ∧
    inB (initState ⟨3, 3⟩ "red" 0).board (1, 1) ∧
    FillSpec (initState ⟨3, 3⟩ "red" 0) 1 1 :=
  ⟨by decide, by decide, fill_spec _ 1 1 (by decide) (by decide)⟩

/-! ## Undo/redo symmetry (claim C3) -/

theorem pushSnapshot_pointer_val (s : EngineState) (c : Grid)
    (h : s.historyPointer < s.history.length) :
    (pushSnapshot s c).historyPointer = s.historyPointer + 1 := by
  show (s.history.take (s.historyPointer + 1) ++ [c]).length - 1
    = s.historyPointer + 1
  rw [List.length_append, List.length_take]
  simp only [List.length_singleton]
  omega

theorem AllNonNoop_take :
    ∀ (ops : List MutOp) (s : EngineState),
      AllNonNoop s ops → ∀ k : Nat, AllNonNoop s (ops.take k) := by
  intro ops
  induction ops with
  | nil =>
    intro s _ k
    rw [List.take_nil]
    exact AllNonNoop.nil s
  | cons op rest ih =>
    intro s h k
    cases h with
    | cons hn hrest =>
      cases k with
      | zero => exact AllNonNoop.nil s
      | succ k =>
        rw [List.take_succ_cons]
        exact AllNonNoop.cons hn (ih _ hrest k)

/-- Running a sequence of non-no-op mutations from a state whose pointer
sits at the last history entry appends exactly one snapshot per
operation, keeps the pointer at the end, and preserves every existing
history entry. -/
theorem applyMuts_trace :
    ∀ (ops : List MutOp) (s : EngineState),
      Inv s → s.historyPointer + 1 = s.history.length → AllNonNoop s ops →
      (applyMuts ops s).history.length = s.history.length + ops.length ∧
      (applyMuts ops s).historyPointer + 1 = (applyMuts ops s).history.length ∧
      (∀ i : Nat, i < s.history.length →
        (applyMuts ops s).history[i]? = s.history[i]?) ∧
      Inv (applyMuts ops s) := by
  intro ops
  induction ops with
  | nil =>
    intro s hInv hTop _
    exact ⟨rfl, hTop, fun i _ => rfl, hInv⟩
  | cons op rest ih =>
    intro s hInv hTop hA
    cases hA with
    | cons hn hrest =>
      have hpush := applyMut_push hn
      have hlen1 : (applyMut op s).history.length = s.history.length + 1 := by
        conv_lhs => rw [hpush]
        rw [pushSnapshot_length s _ hInv.1]
        omega
      have hptr1 : (applyMut op s).historyPointer = s.historyPointer + 1 := by
        conv_lhs => rw [hpush]
        exact pushSnapshot_pointer_val s _ hInv.1
      have hTop1 : (applyMut op s).historyPointer + 1
          = (applyMut op s).history.length := by
        rw [hptr1, hlen1]
        omega
      have hInv1 : Inv (applyMut op s) := applyMut_inv op hInv
      have prefix1 : ∀ i : Nat, i < s.history.length →
          (applyMut op s).history[i]? = s.history[i]? := by
        intro i hi
        conv_lhs => rw [hpush]
        exact pushSnapshot_keeps s _ hInv.1 i (by omega)
      obtain ⟨L, T, P, I⟩ := ih (applyMut op s) hInv1 hTop1 hrest
      have happ : applyMuts (op :: rest) s = applyMuts rest (applyMut op s) := rfl
      refine ⟨?_, ?_, ?_, ?_⟩
      · rw [happ, L, hlen1, List.length_cons]
        omega
      · rw [happ]
        exact T
      · intro i hi
        rw [happ, P i (by rw [hlen1]; omega)]
        exact prefix1 i hi
      · rw [happ]
        exact I

/-- `undo` applied `k ≤ pointer` times: history untouched, pointer moved
back by `k`, live grid the snapshot there. -/
theorem undoN_spec :
    ∀ (k : Nat) (s : EngineState), Inv s → k ≤ s.historyPointer →
      (undoN k s).history = s.history ∧
      (undoN k s).historyPointer = s.historyPointer - k ∧
      (undoN k s).cells = s.history.getD (s.historyPointer - k) [] ∧
      Inv (undoN k s) := by
  intro k
  induction k with
  | zero =>
    intro s hInv _
    refine ⟨rfl, rfl, ?_, hInv⟩
    have hc : s.history.getD (s.historyPointer - 0) [] = s.cells := by
      rw [Nat.sub_zero, List.getD_eq_getElem?_getD, hInv.2]
      rfl
    exact hc.symm
  | succ k ih =>
    intro s hInv hk
    have hpos : 0 < s.historyPointer := by omega
    have hstep : undoOp s
        = ({ s with historyPointer := s.historyPointer - 1,
                    cells := s.history.getD (s.historyPointer - 1) [] }
          : EngineState) := by
      unfold undoOp
      rw [if_pos hpos]
    have hInv1 : Inv (undoOp s) := undoOp_inv hInv
    have h1 : (undoOp s).history = s.history := by rw [hstep]
    have h2 : (undoOp s).historyPointer = s.historyPointer - 1 := by rw [hstep]
    obtain ⟨H, PT, C, I⟩ := ih (undoOp s) hInv1 (by rw [h2]; omega)
    refine ⟨?_, ?_, ?_, I⟩
    · show (undoN k (undoOp s)).history = s.history
      rw [H, h1]
    · show (undoN k (undoOp s)).historyPointer = s.historyPointer - (k + 1)
      rw [PT, h2]
      omega
    · show (undoN k (undoOp s)).cells
        = s.history.getD (s.historyPointer - (k + 1)) []
      rw [C, h1, h2]
      congr 1
      omega

/-- `redo` applied `k` times while `pointer + k` stays in range: history
untouched, pointer moved forward by `k`, live grid the snapshot
there. -/
theorem redoN_spec :
    ∀ (k : Nat) (s : EngineState), Inv s →
      s.historyPointer + k < s.history.length →
      (redoN k s).history = s.history ∧
      (redoN k s).historyPointer = s.historyPointer + k ∧
      (redoN k s).cells = s.history.getD (s.historyPointer + k) [] ∧
      Inv (redoN k s) := by
  intro k
  induction k with
  | zero =>
    intro s hInv _
    refine ⟨rfl, rfl, ?_, hInv⟩
    have hc : s.history.getD (s.historyPointer + 0) [] = s.cells := by
      rw [Nat.add_zero, List.getD_eq_getElem?_getD, hInv.2]
      rfl
    exact hc.symm
  | succ k ih =>
    intro s hInv hk
    have hlt : s.historyPointer + 1 < s.history.length := by omega
    have hstep : redoOp s
        = ({ s with historyPointer := s.historyPointer + 1,
                    cells := s.history.getD (s.historyPointer + 1) [] }
          : EngineState) := by
      unfold redoOp
      rw [if_pos hlt]
    have hInv1 : Inv (redoOp s) := redoOp_inv hInv
    have h1 : (redoOp s).history = s.history := by rw [hstep]
    have h2 : (redoOp s).historyPointer = s.historyPointer + 1 := by rw [hstep]
    obtain ⟨H, PT, C, I⟩ := ih (redoOp s) hInv1 (by rw [h2, h1]; omega)
    refine ⟨?_, ?_, ?_, I⟩
    · show (redoN k (redoOp s)).history = s.history
      rw [H, h1]
    · show (redoN k (redoOp s)).historyPointer = s.historyPointer + (k + 1)
      rw [PT, h2]
      omega
    · show (redoN k (redoOp s)).cells
        = s.history.getD (s.historyPointer + (k + 1)) []
      rw [C, h1, h2]
      congr 1
      omega

/-- C3.  For any sequence of N non-no-op mutating operations applied to
a fresh engine (history of length 1 holding the empty grid, pointer 0):
N undos return the cells to the original empty grid, N redos afterwards
restore the final grid, and the pointer stays a valid history index
throughout the mutation run, the undos and the redos. -/
theorem undo_redo_symmetry (b : Board) (c : String) (now : Int)
    (ops : List MutOp) (hA : AllNonNoop (initState b c now) ops) :
    (undoN ops.length (applyMuts ops (initState b c now))).cells
      = (initState b c now).cells ∧
    (redoN ops.length
        (undoN ops.length (applyMuts ops (initState b c now)))).cells
      = (applyMuts ops (initState b c now)).cells ∧
    (∀ k : Nat, k ≤ ops.length →
      (applyMuts (ops.take k) (initState b c now)).historyPointer
        < (applyMuts (ops.take k) (initState b c now)).history.length) ∧
    (∀ k : Nat, k ≤ ops.length →
      (undoN k (applyMuts ops (initState b c now))).historyPointer
        < (undoN k (applyMuts ops (initState b c now))).history.length) ∧
    (∀ k : Nat, k ≤ ops.length →
      (redoN k (undoN ops.length (applyMuts ops (initState b c now)))).historyPointer
        < (redoN k (undoN ops.length
            (applyMuts ops (initState b c now)))).history.length) := by
  have hInv0 : Inv (initState b c now) := ⟨Nat.one_pos, rfl⟩
  have hTop0 : (initState b c now).historyPointer + 1
      = (initState b c now).history.length := rfl
  obtain ⟨L, T, P, I⟩ := applyMuts_trace ops (initState b c now) hInv0 hTop0 hA
  have hlen0 : (initState b c now).history.length = 1 := rfl
  have hNptr : (applyMuts ops (initState b c now)).historyPointer
      = ops.length := by omega
  obtain ⟨UH, UPT, UC, UI⟩ :=
    undoN_spec ops.length (applyMuts ops (initState b c now)) I (by omega)
  have h0 : (applyMuts ops (initState b c now)).history[0]?
      = (initState b c now).history[0]? := P 0 (by omega)
  have hc1 : (undoN ops.length (applyMuts ops (initState b c now))).cells
      = (initState b c now).cells := by
    rw [UC]
    have hz : (applyMuts ops (initState b c now)).historyPointer - ops.length
        = 0 := by omega
    rw [hz, List.getD_eq_getElem?_getD, h0]
    rfl
  have hUptr : (undoN ops.length
      (applyMuts ops (initState b c now))).historyPointer = 0 := by
    rw [UPT]
    omega
  obtain ⟨RH, RPT, RC, RI⟩ :=
    redoN_spec ops.length (undoN ops.length (applyMuts ops (initState b c now)))
      UI (by rw [hUptr, UH]; omega)
  have hc2 : (redoN ops.length
      (undoN ops.length (applyMuts ops (initState b c now)))).cells
      = (applyMuts ops (initState b c now)).cells := by
    rw [RC, hUptr, UH]
    have hz : (0 : Nat) + ops.length
        = (applyMuts ops (initState b c now)).historyPointer := by omega
    rw [hz, List.getD_eq_getElem?_getD, I.2]
    rfl
  refine ⟨hc1, hc2, ?_, ?_, ?_⟩
  · intro k _
    obtain ⟨_, _, _, Ik⟩ := applyMuts_trace (ops.take k) (initState b c now)
      hInv0 hTop0 (AllNonNoop_take ops _ hA k)
    exact Ik.1
  · intro k hk
    obtain ⟨_, _, _, Iu⟩ :=
      undoN_spec k (applyMuts ops (initState b c now)) I (by omega)
    exact Iu.1
  · intro k hk
    obtain ⟨_, _, _, Ir⟩ :=
      redoN_spec k (undoN ops.length (applyMuts ops (initState b c now))) UI
        (by rw [hUptr, UH]; omega)
    exact Ir.1

/-- Witness for C3: painting (0,0) then clearing on a fresh 3×3 board
(two non-no-op mutations), then two undos and two redos. -/
theorem undo_redo_symmetry_witness :
    AllNonNoop (initState ⟨3, 3⟩ "red" 0) [MutOp.cell 0 0, MutOp.clear] ∧
    (undoN [MutOp.cell 0 0, MutOp.clear].length
        (applyMuts [MutOp.cell 0 0, MutOp.clear] (initState ⟨3, 3⟩ "red" 0))).cells
      = (initState ⟨3, 3⟩ "red" 0).cells ∧
    (redoN [MutOp.cell 0 0, MutOp.clear].length
        (undoN [MutOp.cell 0 0, MutOp.clear].length
          (applyMuts [MutOp.cell 0 0, MutOp.clear]
            (initState ⟨3, 3⟩ "red" 0)))).cells
      = (applyMuts [MutOp.cell 0 0, MutOp.clear]
          (initState ⟨3, 3⟩ "red" 0)).cells :=
  ⟨AllNonNoop.cons (by decide) (AllNonNoop.cons (by decide) (AllNonNoop.nil _)),
    (undo_redo_symmetry ⟨3, 3⟩ "red" 0 [MutOp.cell 0 0, MutOp.clear]
      (AllNonNoop.cons (by decide)
        (AllNonNoop.cons (by decide) (AllNonNoop.nil _)))).1,
    (undo_redo_symmetry ⟨3, 3⟩ "red" 0 [MutOp.cell 0 0, MutOp.clear]
      (AllNonNoop.cons (by decide)
        (AllNonNoop.cons (by decide) (AllNonNoop.nil _)))).2.1⟩

end PegCraft
